import Mathlib

/-!
Verification of the `mediatype` library core (`src/media_type.rs`).

The shallow embedding works over `List Char` (a Rust `&str` slice is a
sequence of characters here).  The aggregate `MediaType` with its
equality, ordering, hashing, display and parameter operations is
translated from `src/media_type.rs`.  The leaf types `Name` and `Value`,
the grammar parser (`Indices::parse` in `parse.rs`) and the `Params`
comparison live in modules that are not part of the provided sources, so
they are modelled from the specification (sections 3, 4.1-4.4 of the
spec), with doc comments marking each such definition.
-/

namespace Mediatype

/-- Modelled from the spec: the restricted-name character set of `Name`
(letters, digits and a fixed small set of punctuation; `+` is excluded
because it introduces the suffix). -/
def isRestrictedChar (c : Char) : Bool :=
  c.isAlphanum || c = '!' || c = '#' || c = '$' || c = '&' || c = '-' ||
    c = '^' || c = '_' || c = '.'

/-- Modelled from the spec: token-safe characters for a bare parameter
value. -/
def isTokenChar (c : Char) : Bool :=
  c.isAlphanum || c = '!' || c = '#' || c = '$' || c = '%' || c = '&' ||
    c = '*' || c = '+' || c = '-' || c = '.' || c = '^' || c = '_' ||
    c = '|' || c = '~' || c.toNat = 39 || c.toNat = 96

/-- Modelled from the spec: optional whitespace (OWS) around `;`. -/
def isOWS (c : Char) : Bool :=
  c = ' ' || c = '\t'

/-- ASCII lower-casing of one character (the case fold used by `Name`
comparison). -/
def asciiLower (c : Char) : Char :=
  if c.toNat ≥ 65 ∧ c.toNat ≤ 90 then Char.ofNat (c.toNat + 32) else c

/-- Modelled from the spec: a `Name` is a validated restricted token; it
stores its original characters verbatim. -/
structure Name where
  raw : List Char
  deriving DecidableEq, Repr

/-- Modelled from the spec: validity of a restricted name: non-empty, at
most 127 characters, first character alphanumeric, every character in the
restricted set. -/
def validName (cs : List Char) : Bool :=
  match cs with
  | [] => false
  | c :: _ => c.isAlphanum && decide (cs.length ≤ 127) && cs.all isRestrictedChar

/-- The case-folded key of a `Name`: comparison, ordering and hashing all
use the ASCII-lowercased characters. -/
def Name.key (n : Name) : List Char :=
  n.raw.map asciiLower

/-- Modelled from the spec: `Name` equality is case-insensitive (based
on the folded key). -/
def Name.beq (a b : Name) : Bool :=
  a.key = b.key

/-- Modelled from the spec: a `Value` stores the original textual form of
a parameter value, either a bare token or a quoted string (quotes
included). -/
structure Value where
  raw : List Char
  deriving DecidableEq, Repr

/-- Modelled from the spec: scans the part of a quoted string after the
opening quote; `\` escapes the following character; the closing `"` must
end the text. -/
def quotedTail (cs : List Char) : Bool :=
  match cs with
  | [] => false
  | c :: rest =>
    if c = '"' then rest.isEmpty
    else if c = '\\' then
      match rest with
      | [] => false
      | _ :: rest2 => quotedTail rest2
    else quotedTail rest

/-- Modelled from the spec: a valid `Value` text is a non-empty token or
a complete quoted string. -/
def validValue (cs : List Char) : Bool :=
  (!cs.isEmpty && cs.all isTokenChar) ||
    (match cs with
     | c :: rest => c = '"' && quotedTail rest
     | [] => false)

/-- Modelled from the spec: decoded content of the part of a quoted
string after the opening quote (escapes resolved, closing quote
dropped). -/
def unescapeTail (cs : List Char) : List Char :=
  match cs with
  | [] => []
  | c :: rest =>
    if c = '"' then []
    else if c = '\\' then
      match rest with
      | [] => []
      | d :: rest2 => d :: unescapeTail rest2
    else c :: unescapeTail rest

/-- Modelled from the spec: the decoded content of a `Value`; quoted
strings are unescaped, bare tokens are their own content. -/
def Value.decoded (v : Value) : List Char :=
  match v.raw with
  | c :: rest => if c = '"' then unescapeTail rest else v.raw
  | [] => []

/-- Modelled from the spec: `Value` equality compares decoded content,
case-sensitively. -/
def Value.beq (a b : Value) : Bool :=
  a.decoded = b.decoded

/-- The borrowed `MediaType` aggregate of `media_type.rs`: top-level
type, subtype, optional suffix and the ordered parameter sequence (the
copy-on-write backing is a memory optimisation with no observable effect
on the value, so the embedding keeps a plain list). -/
structure MediaType where
  ty : Name
  subty : Name
  suffix : Option Name
  params : List (Name × Value)
  deriving DecidableEq, Repr

/-- `MediaType::new`: no suffix, no parameters. -/
def MediaType.new (ty subty : Name) : MediaType :=
  ⟨ty, subty, none, []⟩

/-- `MediaType::from_parts`. -/
def MediaType.fromParts (ty subty : Name) (suffix : Option Name)
    (ps : List (Name × Value)) : MediaType :=
  ⟨ty, subty, suffix, ps⟩

/-- The syntactic field a parse error refers to. -/
inductive Field where
  | ty | subty | suffix | paramName | paramValue
  deriving DecidableEq, Repr

/-- Modelled from the spec: the parse-error taxonomy of section 7
(`MediaTypeError`). -/
inductive Err where
  | emptyInput
  | missingSlash
  | emptyName (f : Field)
  | tooLong (f : Field)
  | invalidChar (f : Field)
  | unterminatedQuote
  | trailing
  deriving DecidableEq, Repr

/-- Modelled from the spec: validation of one restricted-name field
during parsing (empty, too long, bad first character). -/
def checkName (f : Field) (cs : List Char) : Except Err Name :=
  match cs with
  | [] => .error (.emptyName f)
  | c :: _ =>
    if !c.isAlphanum then .error (.invalidChar f)
    else if 127 < cs.length then .error (.tooLong f)
    else .ok ⟨cs⟩

/-- Modelled from the spec: split off the maximal leading run of
characters satisfying `p` (the scanner's field-slicing step). -/
def spanP (p : Char → Bool) (cs : List Char) : List Char × List Char :=
  (cs.takeWhile p, cs.dropWhile p)

/-- Modelled from the spec: skip optional whitespace. -/
def skipOWS (cs : List Char) : List Char :=
  match cs with
  | c :: rest => if isOWS c then skipOWS rest else cs
  | [] => []

/-- Modelled from the spec: scan a quoted string after its opening
quote; returns the consumed characters (closing quote included) and the
remaining input, or `none` when the quote is unterminated. -/
def scanQuotedTail (cs : List Char) : Option (List Char × List Char) :=
  match cs with
  | [] => none
  | c :: rest =>
    if c = '"' then some ([c], rest)
    else if c = '\\' then
      match rest with
      | [] => none
      | d :: rest2 =>
        match scanQuotedTail rest2 with
        | some (tk, rm) => some (c :: d :: tk, rm)
        | none => none
    else
      match scanQuotedTail rest with
      | some (tk, rm) => some (c :: tk, rm)
      | none => none

/-- Modelled from the spec: parse one parameter value, a bare token or a
quoted string, returning the value and the remaining input. -/
def parseValue (cs : List Char) : Except Err (Value × List Char) :=
  match cs with
  | [] => .error (.emptyName .paramValue)
  | c :: rest =>
    if c = '"' then
      match scanQuotedTail rest with
      | some (tk, rm) => .ok (⟨c :: tk⟩, rm)
      | none => .error .unterminatedQuote
    else
      match spanP isTokenChar cs with
      | (tok, rm) =>
        match tok with
        | [] => .error (.invalidChar .paramValue)
        | _ :: _ => .ok (⟨tok⟩, rm)

/-- Modelled from the spec: the parameter loop of the grammar parser:
optional whitespace, then either end of input or `;` OWS name `=` value,
repeated.  `fuel` bounds the number of parameters and only needs to
exceed their count. -/
def parseParamsF (fuel : Nat) (cs : List Char) : Except Err (List (Name × Value)) :=
  match fuel with
  | 0 => .error .trailing
  | fuel + 1 =>
    match skipOWS cs with
    | [] => .ok []
    | c :: rest =>
      if c = ';' then
        match spanP isRestrictedChar (skipOWS rest) with
        | (nc, r3) =>
          match checkName .paramName nc with
          | .error e => .error e
          | .ok key =>
            match r3 with
            | c2 :: r4 =>
              if c2 = '=' then
                match parseValue r4 with
                | .error e => .error e
                | .ok (v, r5) =>
                  match parseParamsF fuel r5 with
                  | .error e => .error e
                  | .ok ps => .ok ((key, v) :: ps)
              else .error (.invalidChar .paramName)
            | [] => .error (.invalidChar .paramName)
      else .error .trailing

/-- Modelled from the spec: parse of the suffix segment (after `+`) and
the parameters, shared by both branches of the main parser. -/
def parseTail (ty subty : Name) (r3 : List Char) (fuel : Nat) :
    Except Err MediaType :=
  match r3 with
  | c :: r4 =>
    if c = '+' then
      match spanP isRestrictedChar r4 with
      | (sufc, r5) =>
        match checkName .suffix sufc with
        | .error e => .error e
        | .ok suffix =>
          match parseParamsF fuel r5 with
          | .error e => .error e
          | .ok ps => .ok ⟨ty, subty, some suffix, ps⟩
    else
      match parseParamsF fuel (c :: r4) with
      | .error e => .error e
      | .ok ps => .ok ⟨ty, subty, none, ps⟩
  | [] =>
    match parseParamsF fuel [] with
    | .error e => .error e
    | .ok ps => .ok ⟨ty, subty, none, ps⟩

/-- `MediaType::parse` over a character sequence: the grammar parser
(modelled from the spec, `Indices::parse` is not among the sources)
produces the field slices, which `media_type.rs` assembles verbatim into
a `MediaType`. -/
def parseMT (cs : List Char) : Except Err MediaType :=
  if cs.isEmpty then .error .emptyInput
  else
    match spanP isRestrictedChar cs with
    | (tyc, r1) =>
      match r1 with
      | c1 :: r2 =>
        if c1 = '/' then
          match checkName .ty tyc with
          | .error e => .error e
          | .ok ty =>
            match spanP isRestrictedChar r2 with
            | (subc, r3) =>
              match checkName .subty subc with
              | .error e => .error e
              | .ok subty => parseTail ty subty r3 (cs.length + 1)
        else .error (.invalidChar .ty)
      | [] => .error .missingSlash

/-- `MediaType::parse` on a string. -/
def MediaType.parse (s : String) : Except Err MediaType :=
  parseMT s.data

/-- The parameter part of the `Display` implementation of
`media_type.rs`: `"; key=value"` for each stored pair, in storage order
(`Name` and `Value` display verbatim). -/
def renderParams (ps : List (Name × Value)) : List Char :=
  match ps with
  | [] => []
  | p :: rest => ';' :: ' ' :: (p.1.raw ++ '=' :: (p.2.raw ++ renderParams rest))

/-- The `Display` implementation of `media_type.rs`:
`ty "/" subty ["+" suffix] *("; " name "=" value)`. -/
def MediaType.render (m : MediaType) : List Char :=
  m.ty.raw ++ '/' :: m.subty.raw ++
    (match m.suffix with
     | some s => '+' :: s.raw
     | none => []) ++ renderParams m.params

/-- `MediaType::to_string` (the `Display` output as a string). -/
def MediaType.toStr (m : MediaType) : String :=
  ⟨m.render⟩

/-- `MediaType::get_param`: scan the stored parameters in reverse and
return the value of the first whose name matches the key
case-insensitively. -/
def MediaType.getParam (m : MediaType) (key : Name) : Option Value :=
  (m.params.reverse.find? (fun p => Name.beq key p.1)).map (fun p => p.2)

/-- `MediaType::remove_params`: when some entry matches the key
case-insensitively, retain only the non-matching entries (the
`key_exists` guard is the copy-on-write optimisation of the source). -/
def MediaType.removeParams (m : MediaType) (key : Name) : MediaType :=
  if m.params.any (fun p => Name.beq key p.1) then
    { m with params := m.params.filter (fun p => !Name.beq key p.1) }
  else m

/-- `MediaType::set_param`: remove all entries for the key, then append
the new pair at the end. -/
def MediaType.setParam (m : MediaType) (key : Name) (v : Value) : MediaType :=
  let m2 := m.removeParams key
  { m2 with params := m2.params ++ [(key, v)] }

/-- `MediaType::clear_params`. -/
def MediaType.clearParams (m : MediaType) : MediaType :=
  { m with params := [] }

/-- Elementwise comparison of the ordered parameter views
(`self.params().eq(other.params())` in `media_type.rs`, an iterator
equality). -/
def paramsBeq (a b : List (Name × Value)) : Bool :=
  match a, b with
  | [], [] => true
  | p :: a2, q :: b2 => Name.beq p.1 q.1 && Value.beq p.2 q.2 && paramsBeq a2 b2
  | _, _ => false

/-- `Option<Name>` equality (Rust derives it from `Name` equality). -/
def suffixBeq (a b : Option Name) : Bool :=
  match a, b with
  | none, none => true
  | some x, some y => Name.beq x y
  | _, _ => false

/-- The `PartialEq` implementation of `media_type.rs`: `Name` equality on
`ty`, `subty`, `suffix`, then the ordered parameter views compared
elementwise. -/
def MediaType.beq (x y : MediaType) : Bool :=
  Name.beq x.ty y.ty && Name.beq x.subty y.subty &&
    suffixBeq x.suffix y.suffix && paramsBeq x.params y.params

/-- Three-way comparison of natural numbers. -/
def cmpN (a b : Nat) : Ordering :=
  if a < b then .lt else if b < a then .gt else .eq

/-- Three-way comparison of characters by code point. -/
def cmpChar (a b : Char) : Ordering :=
  cmpN a.toNat b.toNat

/-- Lexicographic comparison of lists (Rust `Iterator::cmp` / slice
ordering: a strict prefix is smaller). -/
def cmpLex (f : α → α → Ordering) (a b : List α) : Ordering :=
  match a, b with
  | [], [] => .eq
  | [], _ :: _ => .lt
  | _ :: _, [] => .gt
  | x :: a2, y :: b2 => (f x y).then (cmpLex f a2 b2)

/-- Modelled from the spec: `Name` ordering uses the same case-folded
normalisation as equality. -/
def Name.cmp (a b : Name) : Ordering :=
  cmpLex cmpChar a.key b.key

/-- Modelled from the spec: `Value` ordering compares decoded content,
case-sensitively. -/
def Value.cmp (a b : Value) : Ordering :=
  cmpLex cmpChar a.decoded b.decoded

/-- `Option<Name>` ordering (Rust derives it: `None` sorts before
`Some`). -/
def suffixCmp (a b : Option Name) : Ordering :=
  match a, b with
  | none, none => .eq
  | none, some _ => .lt
  | some _, none => .gt
  | some x, some y => Name.cmp x y

/-- Comparison of one parameter pair (Rust tuple ordering: name first,
then value). -/
def paramCmp (p q : Name × Value) : Ordering :=
  (Name.cmp p.1 q.1).then (Value.cmp p.2 q.2)

/-- The `Ord` implementation of `media_type.rs`: lexicographic by `ty`,
`subty`, `suffix`, then the ordered parameter views (the source's chain
of early-returning `match`es on `Ordering::Equal` is exactly
`Ordering.then`). -/
def MediaType.cmp (x y : MediaType) : Ordering :=
  (Name.cmp x.ty y.ty).then <| (Name.cmp x.subty y.subty).then <|
    (suffixCmp x.suffix y.suffix).then <| cmpLex paramCmp x.params y.params

/-- One mixing step of the modelled hash combinator. -/
def hashMix (h x : Nat) : Nat :=
  h * 1000003 + x + 1

/-- Modelled from the spec: a character-sequence hash used by the leaf
hashes. -/
def hashChars (cs : List Char) : Nat :=
  cs.foldl (fun h c => hashMix h c.toNat) 7

/-- Modelled from the spec: `Name` hashing uses the case-folded key, so
it is consistent with `Name` equality. -/
def Name.hashN (n : Name) : Nat :=
  hashChars n.key

/-- Modelled from the spec: `Value` hashing uses the decoded content, so
it is consistent with `Value` equality. -/
def Value.hashN (v : Value) : Nat :=
  hashChars v.decoded

/-- Hash of an optional suffix (Rust hashes the discriminant and, for
`Some`, the `Name`). -/
def suffixHash (s : Option Name) : Nat :=
  match s with
  | none => 0
  | some n => hashMix 1 n.hashN

/-- The `Hash` implementation of `media_type.rs`: combine the hashes of
`ty`, `subty`, `suffix`, then each (name, value) pair in storage
order. -/
def MediaType.hashN (m : MediaType) : Nat :=
  m.params.foldl
    (fun h p => hashMix h (hashMix p.1.hashN p.2.hashN))
    (hashMix (hashMix (hashMix 7 m.ty.hashN) m.subty.hashN) (suffixHash m.suffix))

/-- Validity of one stored parameter pair. -/
def validParam (p : Name × Value) : Bool :=
  validName p.1.raw && validValue p.2.raw

/-- Validity of every stored parameter. -/
def WFparams (ps : List (Name × Value)) : Bool :=
  ps.all validParam

/-- Every `Name` and `Value` held by the `MediaType` has passed its
validation (the data-model invariant of section 3 of the spec). -/
def MediaType.wf (m : MediaType) : Bool :=
  validName m.ty.raw && validName m.subty.raw &&
    (match m.suffix with
     | none => true
     | some s => validName s.raw) && WFparams m.params

/-- The `MediaType` values reachable through the public constructors
(`new`, `from_parts`, `parse`) and the parameter mutations, with every
`Name`/`Value` argument a validated one. -/
inductive Reachable : MediaType → Prop where
  | new (ty subty : Name) : validName ty.raw = true → validName subty.raw = true →
      Reachable (MediaType.new ty subty)
  | fromParts (ty subty : Name) (suffix : Option Name) (ps : List (Name × Value)) :
      validName ty.raw = true → validName subty.raw = true →
      (∀ s, suffix = some s → validName s.raw = true) →
      WFparams ps = true →
      Reachable (MediaType.fromParts ty subty suffix ps)
  | parse (s : String) (m : MediaType) : MediaType.parse s = .ok m → Reachable m
  | setParam (m : MediaType) (k : Name) (v : Value) : Reachable m →
      validName k.raw = true → validValue v.raw = true →
      Reachable (m.setParam k v)
  | removeParams (m : MediaType) (k : Name) : Reachable m →
      Reachable (m.removeParams k)
  | clearParams (m : MediaType) : Reachable m → Reachable m.clearParams

instance {ε α : Type} [DecidableEq ε] [DecidableEq α] : DecidableEq (Except ε α) :=
  fun a b =>
    match a, b with
    | .ok x, .ok y =>
      if h : x = y then .isTrue (by rw [h]) else .isFalse (by intro he; cases he; exact h rfl)
    | .error x, .error y =>
      if h : x = y then .isTrue (by rw [h]) else .isFalse (by intro he; cases he; exact h rfl)
    | .ok _, .error _ => .isFalse (by intro he; cases he)
    | .error _, .ok _ => .isFalse (by intro he; cases he)

/-- Both strings parse successfully and the two results are equal under
the `PartialEq` of `media_type.rs` (used to state the equality
examples). -/
def parsesEq (s1 s2 : String) : Bool :=
  match MediaType.parse s1, MediaType.parse s2 with
  | .ok a, .ok b => MediaType.beq a b
  | _, _ => false

/-- ASCII-lowercases every `Name` position (type, subtype, suffix and
parameter names) and leaves parameter values untouched. -/
def lowerNames (m : MediaType) : MediaType :=
  ⟨⟨m.ty.key⟩, ⟨m.subty.key⟩, m.suffix.map (fun s => ⟨s.key⟩),
    m.params.map (fun p => (⟨p.1.key⟩, p.2))⟩

/-! ### Character-level facts -/

theorem charOfNat_toNat {n : Nat} (h1 : 97 ≤ n) (h2 : n ≤ 122) :
    (Char.ofNat n).toNat = n := by
  have hv : n.isValidChar := Or.inl (by omega)
  simp [Char.ofNat, hv, Char.ofNatAux, Char.toNat, UInt32.ofNat', UInt32.toNat]

theorem asciiLower_idem (c : Char) : asciiLower (asciiLower c) = asciiLower c := by
  unfold asciiLower
  by_cases h : c.toNat ≥ 65 ∧ c.toNat ≤ 90
  · have hv : (Char.ofNat (c.toNat + 32)).toNat = c.toNat + 32 :=
      charOfNat_toNat (by omega) (by omega)
    simp only [h, if_pos, hv]
    have : ¬((Char.ofNat (c.toNat + 32)).toNat ≥ 65 ∧ (Char.ofNat (c.toNat + 32)).toNat ≤ 90) := by
      rw [hv]; omega
    simp [this]
  · simp [h]

theorem isAlphanum_not_OWS {c : Char} (h : c.isAlphanum = true) : isOWS c = false := by
  by_cases h1 : c = ' '
  · subst h1; simp at h
  · by_cases h2 : c = '\t'
    · subst h2; simp at h
    · simp [isOWS, h1, h2]

theorem isTokenChar_ne_quote {c : Char} (h : isTokenChar c = true) : c ≠ '"' := by
  intro he; subst he; simp [isTokenChar] at h

/-! ### `spanP` and `skipOWS` -/

theorem takeWhile_all_append {p : Char → Bool} {l r : List Char}
    (h1 : ∀ c ∈ l, p c = true) (h2 : ∀ c, r.head? = some c → p c = false) :
    List.takeWhile p (l ++ r) = l := by
  induction l with
  | nil =>
    cases r with
    | nil => rfl
    | cons c r2 =>
      have := h2 c rfl
      simp [List.takeWhile, this]
  | cons c l2 ih =>
    have hc := h1 c (List.mem_cons_self c l2)
    simp only [List.cons_append, List.takeWhile, hc]
    simp only [List.append_eq] at *
    rw [ih (fun d hd => h1 d (List.mem_cons_of_mem c hd))]

theorem dropWhile_all_append {p : Char → Bool} {l r : List Char}
    (h1 : ∀ c ∈ l, p c = true) (h2 : ∀ c, r.head? = some c → p c = false) :
    List.dropWhile p (l ++ r) = r := by
  induction l with
  | nil =>
    cases r with
    | nil => rfl
    | cons c r2 =>
      have := h2 c rfl
      simp [List.dropWhile, this]
  | cons c l2 ih =>
    have hc := h1 c (List.mem_cons_self c l2)
    simp only [List.cons_append, List.dropWhile, hc]
    exact ih (fun d hd => h1 d (List.mem_cons_of_mem c hd))

theorem spanP_append {p : Char → Bool} {l r : List Char}
    (h1 : ∀ c ∈ l, p c = true) (h2 : ∀ c, r.head? = some c → p c = false) :
    spanP p (l ++ r) = (l, r) := by
  unfold spanP
  rw [takeWhile_all_append h1 h2, dropWhile_all_append h1 h2]

theorem skipOWS_of_head_not {cs : List Char}
    (h : ∀ c, cs.head? = some c → isOWS c = false) : skipOWS cs = cs := by
  cases cs with
  | nil => rfl
  | cons c rest => simp [skipOWS, h c rfl]

theorem skipOWS_cons_space (cs : List Char) : skipOWS (' ' :: cs) = skipOWS cs := by
  simp [skipOWS, isOWS]

/-! ### Quoted-string scanning -/

theorem scanQuotedTail_append (rest : List Char) :
    ∀ tk, quotedTail tk = true → scanQuotedTail (tk ++ rest) = some (tk, rest) := by
  intro tk
  induction tk using quotedTail.induct with
  | case1 =>
    intro h; simp [quotedTail] at h
  | case2 tail =>
    intro h
    rw [quotedTail.eq_def] at h
    simp at h
    subst h
    rw [scanQuotedTail.eq_def]
    simp
  | case3 hne =>
    intro h; simp [quotedTail] at h
  | case4 c tail hne ih =>
    intro h
    rw [quotedTail.eq_def] at h
    simp at h
    have := ih h
    simp only [List.cons_append]
    rw [scanQuotedTail.eq_def]
    simp [this]
  | case5 c tail hc hb ih =>
    intro h
    rw [quotedTail.eq_def] at h
    simp [hc, hb] at h
    have := ih h
    simp only [List.cons_append]
    rw [scanQuotedTail.eq_def]
    simp [hc, hb, this]

theorem scanQuotedTail_sound :
    ∀ cs tk rm, scanQuotedTail cs = some (tk, rm) →
      quotedTail tk = true ∧ cs = tk ++ rm := by
  intro cs
  induction cs using scanQuotedTail.induct with
  | case1 =>
    intro tk rm h; simp [scanQuotedTail] at h
  | case2 tail =>
    intro tk rm h
    rw [scanQuotedTail.eq_def] at h
    simp at h
    obtain ⟨h1, h2⟩ := h
    subst h1; subst h2
    exact ⟨by simp [quotedTail], rfl⟩
  | case3 hne =>
    intro tk rm h; simp [scanQuotedTail] at h
  | case4 c tail tk0 rm0 hscan hne ih =>
    intro tk rm h
    rw [scanQuotedTail.eq_def] at h
    simp [hscan] at h
    obtain ⟨h1, h2⟩ := h
    subst h1; subst h2
    obtain ⟨hqt, happ⟩ := ih tk0 rm0 hscan
    refine ⟨?_, by simp [happ]⟩
    rw [quotedTail.eq_def]
    simpa using hqt
  | case5 c tail hscan hne ih =>
    intro tk rm h
    rw [scanQuotedTail.eq_def] at h
    simp [hscan] at h
  | case6 c tail hc hb tk0 rm0 hscan ih =>
    intro tk rm h
    rw [scanQuotedTail.eq_def] at h
    simp [hc, hb, hscan] at h
    obtain ⟨h1, h2⟩ := h
    subst h1; subst h2
    obtain ⟨hqt, happ⟩ := ih tk0 rm0 hscan
    refine ⟨?_, by simp [happ]⟩
    rw [quotedTail.eq_def]
    simp [hc, hb, hqt]
  | case7 c tail hc hb hscan ih =>
    intro tk rm h
    rw [scanQuotedTail.eq_def] at h
    simp [hc, hb, hscan] at h

/-! ### Names and values: validity and parse inversion -/

theorem validName_facts {cs : List Char} (h : validName cs = true) :
    cs ≠ [] ∧ cs.length ≤ 127 ∧ (∀ c, cs.head? = some c → c.isAlphanum = true) ∧
      (∀ c ∈ cs, isRestrictedChar c = true) := by
  match cs with
  | [] => simp [validName] at h
  | c :: tl =>
    rw [validName] at h
    simp only [Bool.and_eq_true, decide_eq_true_eq, List.all_eq_true] at h
    refine ⟨by simp, h.1.2, ?_, h.2⟩
    intro d hd
    simp at hd
    subst hd
    exact h.1.1

theorem checkName_of_valid {cs : List Char} (f : Field) (h : validName cs = true) :
    checkName f cs = .ok ⟨cs⟩ := by
  obtain ⟨hne, hlen, hhead, _⟩ := validName_facts h
  match cs with
  | [] => exact absurd rfl hne
  | c :: tl =>
    have hc := hhead c rfl
    simp at hlen
    simp [checkName, hc]
    omega

theorem checkName_ok_valid {cs : List Char} {f : Field} {n : Name}
    (hall : ∀ c ∈ cs, isRestrictedChar c = true)
    (h : checkName f cs = .ok n) : n.raw = cs ∧ validName cs = true := by
  match cs with
  | [] => simp [checkName] at h
  | c :: tl =>
    rw [checkName] at h
    split at h
    next hb => exact absurd h (by simp)
    next hb =>
      split at h
      next hl => exact absurd h (by simp)
      next hl =>
        have hn : Name.mk (c :: tl) = n := by
          injection h
        subst hn
        refine ⟨rfl, ?_⟩
        rw [validName]
        simp only [Bool.and_eq_true, decide_eq_true_eq, List.all_eq_true]
        refine ⟨⟨?_, ?_⟩, hall⟩
        · revert hb; simp
        · omega

theorem parseValue_append {v : Value} (h : validValue v.raw = true)
    {rest : List Char} (hrest : rest = [] ∨ rest.head? = some ';') :
    parseValue (v.raw ++ rest) = .ok (v, rest) := by
  rw [validValue.eq_def] at h
  simp only [Bool.or_eq_true, Bool.and_eq_true, List.all_eq_true] at h
  rcases h with ⟨hne, hall⟩ | hq
  · -- bare token
    match hv : v.raw with
    | [] => rw [hv] at hne; simp at hne
    | c :: tl =>
      rw [hv] at hall
      have hc : isTokenChar c = true := hall c (List.mem_cons_self c tl)
      have hcq : ¬c = '"' := isTokenChar_ne_quote hc
      have hspan : spanP isTokenChar ((c :: tl) ++ rest) = (c :: tl, rest) := by
        refine spanP_append hall ?_
        intro d hd
        rcases hrest with h0 | h0
        · subst h0; simp at hd
        · rw [h0] at hd
          simp at hd
          subst hd
          decide
      rw [List.cons_append, parseValue, if_neg hcq, ← List.cons_append, hspan]
      have : v = ⟨c :: tl⟩ := by cases v; exact congrArg Value.mk hv
      rw [this]
  · -- quoted string
    match hv : v.raw with
    | [] => rw [hv] at hq; simp at hq
    | c :: tl =>
      rw [hv] at hq
      simp only [Bool.and_eq_true, decide_eq_true_eq] at hq
      obtain ⟨hc, hqt⟩ := hq
      subst hc
      rw [List.cons_append, parseValue, if_pos rfl,
        scanQuotedTail_append rest tl hqt]
      have : v = ⟨'"' :: tl⟩ := by cases v; exact congrArg Value.mk hv
      rw [this]

theorem parseValue_ok_valid {cs : List Char} {v : Value} {rm : List Char}
    (h : parseValue cs = .ok (v, rm)) : validValue v.raw = true := by
  match cs with
  | [] => simp [parseValue] at h
  | c :: rest =>
    rw [parseValue] at h
    by_cases hc : c = '"'
    · rw [if_pos hc] at h
      match hscan : scanQuotedTail rest with
      | some (tk, rm0) =>
        rw [hscan] at h
        simp at h
        obtain ⟨h1, h2⟩ := h
        obtain ⟨hqt, _⟩ := scanQuotedTail_sound rest tk rm0 hscan
        rw [← h1, validValue.eq_def]
        simp [hc, hqt]
      | none => rw [hscan] at h; simp at h
    · rw [if_neg hc] at h
      simp only [spanP] at h
      match htok : List.takeWhile isTokenChar (c :: rest) with
      | [] => rw [htok] at h; simp at h
      | t :: ts =>
        rw [htok] at h
        simp at h
        obtain ⟨h1, h2⟩ := h
        have hall : ∀ d ∈ t :: ts, isTokenChar d = true := by
          intro d hd
          rw [← htok] at hd
          exact List.mem_takeWhile_imp hd
        rw [← h1, validValue.eq_def]
        simp only [Bool.or_eq_true, Bool.and_eq_true, List.all_eq_true]
        refine Or.inl ⟨by simp, ?_⟩
        simpa using hall

/-! ### The parameter loop -/

theorem renderParams_head (ps : List (Name × Value)) :
    renderParams ps = [] ∨ (renderParams ps).head? = some ';' := by
  cases ps with
  | nil => exact Or.inl rfl
  | cons p rest => exact Or.inr rfl

theorem renderParams_length (ps : List (Name × Value)) :
    ps.length ≤ (renderParams ps).length := by
  induction ps with
  | nil => simp
  | cons p rest ih =>
    rw [renderParams]
    simp only [List.length_cons, List.length_append]
    omega

theorem validName_skipOWS {k : Name} (hk : validName k.raw = true)
    (tl : List Char) : skipOWS (k.raw ++ tl) = k.raw ++ tl := by
  obtain ⟨hne, _, hhead, _⟩ := validName_facts hk
  refine skipOWS_of_head_not ?_
  intro c hc
  match hckr : k.raw with
  | [] => exact absurd hckr hne
  | d :: tl2 =>
    rw [hckr] at hc
    have hdc : d = c := by simpa using hc
    rw [← hdc]
    exact isAlphanum_not_OWS (hhead d (by rw [hckr]; rfl))

theorem parseParamsF_render :
    ∀ ps fuel, WFparams ps = true → ps.length < fuel →
      parseParamsF fuel (renderParams ps) = .ok ps := by
  intro ps
  induction ps with
  | nil =>
    intro fuel _ hfuel
    match fuel with
    | f + 1 => rw [parseParamsF]; rfl
  | cons p rest ih =>
    intro fuel hwf hfuel
    rw [WFparams] at hwf
    simp only [List.all_cons, Bool.and_eq_true] at hwf
    obtain ⟨hp, hrest⟩ := hwf
    rw [validParam] at hp
    simp only [Bool.and_eq_true] at hp
    obtain ⟨hkey, hval⟩ := hp
    match fuel with
    | f + 1 =>
      rw [renderParams, parseParamsF]
      have h1 : skipOWS (';' :: ' ' :: (p.1.raw ++ '=' :: (p.2.raw ++ renderParams rest))) =
          ';' :: ' ' :: (p.1.raw ++ '=' :: (p.2.raw ++ renderParams rest)) := by
        refine skipOWS_of_head_not ?_
        intro c hc
        simp at hc
        subst hc
        decide
      rw [h1]
      simp only [if_pos rfl]
      rw [skipOWS_cons_space, validName_skipOWS hkey]
      have hspan : spanP isRestrictedChar
          (p.1.raw ++ '=' :: (p.2.raw ++ renderParams rest)) =
          (p.1.raw, '=' :: (p.2.raw ++ renderParams rest)) := by
        refine spanP_append ?_ ?_
        · exact (validName_facts hkey).2.2.2
        · intro c hc
          simp at hc
          subst hc
          decide
      rw [hspan]
      rw [checkName_of_valid .paramName hkey]
      have hv : parseValue (p.2.raw ++ renderParams rest) = .ok (p.2, renderParams rest) :=
        parseValue_append hval (renderParams_head rest)
      simp only [hv]
      have hih : parseParamsF f (renderParams rest) = .ok rest := by
        refine ih f (by rw [WFparams]; exact hrest) ?_
        simp at hfuel
        omega
      simp [hih]

theorem parseParamsF_ok_wf :
    ∀ fuel cs ps, parseParamsF fuel cs = .ok ps → WFparams ps = true := by
  intro fuel
  induction fuel with
  | zero => intro cs ps h; simp [parseParamsF] at h
  | succ f ih =>
    intro cs ps h
    rw [parseParamsF] at h
    cases hskip : skipOWS cs with
    | nil =>
      simp only [hskip] at h
      simp at h
      subst h
      rfl
    | cons c rest =>
      simp only [hskip] at h
      by_cases hc : c = ';'
      · simp only [if_pos hc, spanP] at h
        cases hcheck : checkName .paramName (List.takeWhile isRestrictedChar (skipOWS rest)) with
        | error e => simp only [hcheck] at h; simp at h
        | ok key =>
          simp only [hcheck] at h
          cases hdrop : List.dropWhile isRestrictedChar (skipOWS rest) with
          | nil => simp only [hdrop] at h; simp at h
          | cons c2 r4 =>
            simp only [hdrop] at h
            by_cases hc2 : c2 = '='
            · simp only [if_pos hc2] at h
              cases hval : parseValue r4 with
              | error e => simp only [hval] at h; simp at h
              | ok vr =>
                obtain ⟨v, r5⟩ := vr
                simp only [hval] at h
                cases hps2 : parseParamsF f r5 with
                | error e => simp only [hps2] at h; simp at h
                | ok ps2 =>
                  simp only [hps2] at h
                  simp at h
                  subst h
                  rw [WFparams]
                  simp only [List.all_cons, Bool.and_eq_true]
                  refine ⟨?_, ?_⟩
                  · rw [validParam]
                    simp only [Bool.and_eq_true]
                    have hkv := checkName_ok_valid
                      (fun d hd => List.mem_takeWhile_imp hd) hcheck
                    refine ⟨?_, parseValue_ok_valid hval⟩
                    rw [hkv.1]
                    exact hkv.2
                  · have := ih _ _ hps2
                    rw [WFparams] at this
                    exact this
            · simp only [if_neg hc2] at h
              simp at h
      · simp only [if_neg hc] at h
        simp at h

/-! ### The top-level parser -/

theorem parseTail_ok_wf {ty subty : Name} {r3 : List Char} {fuel : Nat}
    {m : MediaType} (hty : validName ty.raw = true)
    (hsub : validName subty.raw = true)
    (h : parseTail ty subty r3 fuel = .ok m) : m.wf = true := by
  have fromParams : ∀ {ps cs}, parseParamsF fuel cs = .ok ps →
      m = ⟨ty, subty, none, ps⟩ → m.wf = true := by
    intro ps cs hps hm
    subst hm
    rw [MediaType.wf]
    simp only [Bool.and_eq_true]
    exact ⟨⟨⟨hty, hsub⟩, by trivial⟩, parseParamsF_ok_wf _ _ _ hps⟩
  cases r3 with
  | nil =>
    rw [parseTail.eq_def] at h
    cases hps : parseParamsF fuel ([] : List Char) with
    | error e => simp only [hps] at h; simp at h
    | ok ps =>
      simp only [hps] at h
      simp at h
      exact fromParams hps h.symm
  | cons c r4 =>
    rw [parseTail.eq_def] at h
    by_cases hc : c = '+'
    · simp only [if_pos hc, spanP] at h
      cases hcheck : checkName .suffix (List.takeWhile isRestrictedChar r4) with
      | error e => simp only [hcheck] at h; simp at h
      | ok s =>
        simp only [hcheck] at h
        cases hps : parseParamsF fuel (List.dropWhile isRestrictedChar r4) with
        | error e => simp only [hps] at h; simp at h
        | ok ps =>
          simp only [hps] at h
          simp at h
          subst h
          have hs := checkName_ok_valid (fun d hd => List.mem_takeWhile_imp hd) hcheck
          rw [MediaType.wf]
          simp only [Bool.and_eq_true]
          refine ⟨⟨⟨hty, hsub⟩, ?_⟩, parseParamsF_ok_wf _ _ _ hps⟩
          rw [hs.1]
          exact hs.2
    · simp only [if_neg hc] at h
      cases hps : parseParamsF fuel (c :: r4) with
      | error e => simp only [hps] at h; simp at h
      | ok ps =>
        simp only [hps] at h
        simp at h
        exact fromParams hps h.symm

set_option maxHeartbeats 1600000 in
theorem parseMT_ok_wf {cs : List Char} {m : MediaType}
    (h : parseMT cs = .ok m) : m.wf = true := by
  rw [parseMT] at h
  by_cases hemp : cs.isEmpty = true
  · simp only [if_pos hemp] at h; simp at h
  · simp only [if_neg hemp, spanP] at h
    cases hdrop : List.dropWhile isRestrictedChar cs with
    | nil => simp only [hdrop] at h; simp at h
    | cons c1 r2 =>
      simp only [hdrop] at h
      by_cases hc1 : c1 = '/'
      · simp only [if_pos hc1] at h
        cases hty : checkName .ty (List.takeWhile isRestrictedChar cs) with
        | error e => simp only [hty] at h; simp at h
        | ok ty =>
          simp only [hty] at h
          cases hsub : checkName .subty (List.takeWhile isRestrictedChar r2) with
          | error e => simp only [hsub] at h; simp at h
          | ok subty =>
            simp only [hsub] at h
            have h1 := checkName_ok_valid (fun d hd => List.mem_takeWhile_imp hd) hty
            have h2 := checkName_ok_valid (fun d hd => List.mem_takeWhile_imp hd) hsub
            exact parseTail_ok_wf (h1.1 ▸ h1.2) (h2.1 ▸ h2.2) h
      · simp only [if_neg hc1] at h
        simp at h


/-- The suffix segment of the `Display` output. -/
def renderSuffix (s : Option Name) : List Char :=
  match s with
  | some n => '+' :: n.raw
  | none => []

theorem render_shape (m : MediaType) :
    m.render = m.ty.raw ++ ('/' :: (m.subty.raw ++ (renderSuffix m.suffix ++ renderParams m.params))) := by
  cases hs : m.suffix with
  | some s => simp [MediaType.render, renderSuffix, hs, List.append_assoc]
  | none => simp [MediaType.render, renderSuffix, hs, List.append_assoc]

theorem renderSuffix_params_head_not_restricted (s : Option Name)
    (ps : List (Name × Value)) :
    ∀ c, (renderSuffix s ++ renderParams ps).head? = some c → isRestrictedChar c = false := by
  intro c hc
  cases s with
  | some n =>
    simp [renderSuffix] at hc
    subst hc
    decide
  | none =>
    simp only [renderSuffix, List.nil_append] at hc
    rcases renderParams_head ps with h0 | h0
    · rw [h0] at hc; simp at hc
    · rw [h0] at hc
      simp at hc
      subst hc
      decide

theorem parseParamsF_render_nil {fuel : Nat} (hfuel : 0 < fuel) :
    parseParamsF fuel ([] : List Char) = .ok [] := by
  have := parseParamsF_render [] fuel rfl hfuel
  simpa [renderParams] using this

theorem parseTail_render {m : MediaType}
    (hsuf : (match m.suffix with
             | none => true
             | some s => validName s.raw) = true)
    (hps : WFparams m.params = true) {fuel : Nat}
    (hfuel : m.params.length < fuel) :
    parseTail m.ty m.subty (renderSuffix m.suffix ++ renderParams m.params) fuel = .ok m := by
  cases hsufeq : m.suffix with
  | some s =>
    rw [hsufeq] at hsuf
    simp only at hsuf
    obtain ⟨hsne, _, _, hsall⟩ := validName_facts hsuf
    simp only [renderSuffix]
    simp only [List.cons_append]
    rw [parseTail.eq_def]
    simp only [if_pos rfl]
    have hspan : spanP isRestrictedChar (s.raw ++ renderParams m.params) =
        (s.raw, renderParams m.params) :=
      spanP_append hsall (renderSuffix_params_head_not_restricted none m.params)
    rw [hspan]
    rw [checkName_of_valid .suffix hsuf]
    rw [parseParamsF_render m.params fuel hps hfuel]
    simp [← hsufeq]
  | none =>
    simp only [renderSuffix]
    simp only [List.nil_append]
    cases hpeq : m.params with
    | nil =>
      rw [renderParams, parseTail.eq_def]
      rw [parseParamsF_render_nil (by omega)]
      simp [← hsufeq, ← hpeq]
    | cons p rest =>
      rw [renderParams, parseTail.eq_def]
      have hne : ¬(';' = '+') := by decide
      simp only [if_neg hne]
      rw [show (';' :: ' ' :: (p.1.raw ++ '=' :: (p.2.raw ++ renderParams rest))) =
          renderParams (p :: rest) from rfl]
      rw [← hpeq]
      rw [parseParamsF_render m.params fuel hps hfuel]
      simp [← hsufeq]

theorem render_params_le (m : MediaType) :
    m.params.length ≤ m.render.length := by
  have h1 := renderParams_length m.params
  rw [render_shape]
  simp only [List.length_append, List.length_cons]
  omega

set_option maxHeartbeats 1600000 in
theorem parseMT_render {m : MediaType} (h : m.wf = true) :
    parseMT m.render = .ok m := by
  rw [MediaType.wf] at h
  simp only [Bool.and_eq_true] at h
  obtain ⟨⟨⟨hty, hsub⟩, hsuf⟩, hps⟩ := h
  obtain ⟨htyne, _, _, htyall⟩ := validName_facts hty
  obtain ⟨hsubne, _, _, hsuball⟩ := validName_facts hsub
  obtain ⟨c0, tyTl, htyraw⟩ := List.exists_cons_of_ne_nil htyne
  have hfuel : m.params.length < m.render.length + 1 :=
    Nat.lt_succ_of_le (render_params_le m)
  have hspan1 : spanP isRestrictedChar m.render =
      (m.ty.raw, '/' :: (m.subty.raw ++ (renderSuffix m.suffix ++ renderParams m.params))) := by
    rw [render_shape]
    refine spanP_append htyall ?_
    intro d hd
    simp at hd
    subst hd
    decide
  have hspan2 : spanP isRestrictedChar
      (m.subty.raw ++ (renderSuffix m.suffix ++ renderParams m.params)) =
      (m.subty.raw, renderSuffix m.suffix ++ renderParams m.params) :=
    spanP_append hsuball (renderSuffix_params_head_not_restricted m.suffix m.params)
  have hnemp : ¬(m.render.isEmpty = true) := by
    rw [render_shape, htyraw]
    simp
  rw [parseMT, if_neg hnemp]
  rw [hspan1]
  simp only [hspan2, checkName_of_valid .ty hty, checkName_of_valid .subty hsub,
    if_pos rfl]
  exact parseTail_render hsuf hps hfuel


/-! ### Parameter mutation: fields and storage -/

theorem removeParams_fields (m : MediaType) (k : Name) :
    (m.removeParams k).ty = m.ty ∧ (m.removeParams k).subty = m.subty ∧
      (m.removeParams k).suffix = m.suffix := by
  rw [MediaType.removeParams]
  split <;> exact ⟨rfl, rfl, rfl⟩

theorem removeParams_params (m : MediaType) (k : Name) :
    (m.removeParams k).params = m.params.filter (fun p => !Name.beq k p.1) := by
  rw [MediaType.removeParams]
  split
  next hany => rfl
  next hany =>
    have hall : ∀ p ∈ m.params, (!Name.beq k p.1) = true := by
      intro p hp
      by_contra hne
      simp at hne
      exact hany (List.any_eq_true.mpr ⟨p, hp, hne⟩)
    exact (List.filter_eq_self.mpr hall).symm

theorem setParam_fields (m : MediaType) (k : Name) (v : Value) :
    (m.setParam k v).ty = m.ty ∧ (m.setParam k v).subty = m.subty ∧
      (m.setParam k v).suffix = m.suffix := by
  rw [MediaType.setParam]
  exact removeParams_fields m k

theorem setParam_params (m : MediaType) (k : Name) (v : Value) :
    (m.setParam k v).params = m.params.filter (fun p => !Name.beq k p.1) ++ [(k, v)] := by
  rw [MediaType.setParam]
  simp only [removeParams_params]

/-! ### Well-formedness preservation and reachability -/

theorem wf_fields {m : MediaType}
    (hty : validName m.ty.raw = true) (hsub : validName m.subty.raw = true)
    (hsuf : ∀ s, m.suffix = some s → validName s.raw = true)
    (hps : WFparams m.params = true) : m.wf = true := by
  rw [MediaType.wf]
  simp only [Bool.and_eq_true]
  refine ⟨⟨⟨hty, hsub⟩, ?_⟩, hps⟩
  cases hs : m.suffix with
  | none => rfl
  | some s => exact hsuf s hs

theorem wf_split {m : MediaType} (h : m.wf = true) :
    validName m.ty.raw = true ∧ validName m.subty.raw = true ∧
      (∀ s, m.suffix = some s → validName s.raw = true) ∧ WFparams m.params = true := by
  rw [MediaType.wf] at h
  simp only [Bool.and_eq_true] at h
  obtain ⟨⟨⟨hty, hsub⟩, hsuf⟩, hps⟩ := h
  refine ⟨hty, hsub, ?_, hps⟩
  intro s hs
  rw [hs] at hsuf
  exact hsuf

theorem WFparams_filter {ps : List (Name × Value)} (h : WFparams ps = true)
    (q : Name × Value → Bool) : WFparams (ps.filter q) = true := by
  rw [WFparams] at h ⊢
  simp only [List.all_eq_true] at h ⊢
  intro p hp
  exact h p (List.mem_of_mem_filter hp)

theorem wf_setParam {m : MediaType} {k : Name} {v : Value} (h : m.wf = true)
    (hk : validName k.raw = true) (hv : validValue v.raw = true) :
    (m.setParam k v).wf = true := by
  obtain ⟨hty, hsub, hsuf, hps⟩ := wf_split h
  obtain ⟨f1, f2, f3⟩ := setParam_fields m k v
  have hparams : WFparams (m.setParam k v).params = true := by
    rw [setParam_params, WFparams]
    simp only [List.all_append, Bool.and_eq_true]
    constructor
    · exact WFparams_filter hps _
    · simp [validParam, hk, hv]
  refine wf_fields ?_ ?_ ?_ hparams
  · rw [f1]; exact hty
  · rw [f2]; exact hsub
  · intro s hs
    rw [f3] at hs
    exact hsuf s hs

theorem wf_removeParams {m : MediaType} {k : Name} (h : m.wf = true) :
    (m.removeParams k).wf = true := by
  obtain ⟨hty, hsub, hsuf, hps⟩ := wf_split h
  obtain ⟨f1, f2, f3⟩ := removeParams_fields m k
  have hparams : WFparams (m.removeParams k).params = true := by
    rw [removeParams_params]
    exact WFparams_filter hps _
  refine wf_fields ?_ ?_ ?_ hparams
  · rw [f1]; exact hty
  · rw [f2]; exact hsub
  · intro s hs
    rw [f3] at hs
    exact hsuf s hs

theorem wf_clearParams {m : MediaType} (h : m.wf = true) :
    m.clearParams.wf = true := by
  obtain ⟨hty, hsub, hsuf, hps⟩ := wf_split h
  exact wf_fields hty hsub hsuf rfl

theorem reachable_wf {m : MediaType} (h : Reachable m) : m.wf = true := by
  induction h with
  | new ty subty hty hsub =>
    exact wf_fields hty hsub (fun s hs => by cases hs) rfl
  | fromParts ty subty suffix ps hty hsub hsuf hps =>
    exact wf_fields hty hsub hsuf hps
  | parse s m hok => exact parseMT_ok_wf hok
  | setParam m k v _ hk hv ih => exact wf_setParam ih hk hv
  | removeParams m k _ ih => exact wf_removeParams ih
  | clearParams m _ ih => exact wf_clearParams ih

/-! ### Reflexivity of the source equality -/

theorem nameBeq_refl (a : Name) : Name.beq a a = true := by
  simp [Name.beq]

theorem valueBeq_refl (a : Value) : Value.beq a a = true := by
  simp [Value.beq]

theorem suffixBeq_refl (s : Option Name) : suffixBeq s s = true := by
  cases s with
  | none => rfl
  | some n => simp [suffixBeq, nameBeq_refl]

theorem paramsBeq_refl (ps : List (Name × Value)) : paramsBeq ps ps = true := by
  induction ps with
  | nil => rfl
  | cons p rest ih =>
    rw [paramsBeq]
    simp [nameBeq_refl, valueBeq_refl, ih]

theorem mtBeq_refl (m : MediaType) : MediaType.beq m m = true := by
  rw [MediaType.beq]
  simp [nameBeq_refl, suffixBeq_refl, paramsBeq_refl]


/-! ### Helper lemmas for the equality claims -/

theorem key_mk_key (n : Name) : (Name.mk n.key).key = n.key := by
  rw [Name.key, Name.key]
  simp only [List.map_map]
  exact List.map_congr_left (fun c _ => asciiLower_idem c)

theorem lowerNames_beq (m : MediaType) : MediaType.beq (lowerNames m) m = true := by
  rw [MediaType.beq, lowerNames]
  simp only [Bool.and_eq_true]
  refine ⟨⟨⟨?_, ?_⟩, ?_⟩, ?_⟩
  · rw [Name.beq]; simp [key_mk_key]
  · rw [Name.beq]; simp [key_mk_key]
  · cases hs : m.suffix with
    | none => rfl
    | some s =>
      simp [suffixBeq, Name.beq, key_mk_key]
  · generalize m.params = ps
    induction ps with
    | nil => rfl
    | cons p rest ih =>
      simp only [List.map_cons]
      rw [paramsBeq]
      simp only [Bool.and_eq_true]
      refine ⟨⟨?_, valueBeq_refl p.2⟩, ih⟩
      rw [Name.beq]
      simp [key_mk_key]

/-! ### Claims -/

/-- C1: round-trip law: every `MediaType` reachable through the public
constructors (`new`, `from_parts`, `parse`) and the parameter mutations
re-parses from its `Display` output to an equal value. -/
theorem mediaType_roundtrip (m : MediaType) (h : Reachable m) :
    ∃ y, MediaType.parse m.toStr = .ok y ∧ MediaType.beq y m = true :=
  ⟨m, parseMT_render (reachable_wf h), mtBeq_refl m⟩

theorem mediaType_roundtrip_witness :
    ∃ y, MediaType.parse ((MediaType.new ⟨"text".data⟩ ⟨"plain".data⟩).setParam
        ⟨"charset".data⟩ ⟨"UTF-8".data⟩).toStr = .ok y ∧
      MediaType.beq y ((MediaType.new ⟨"text".data⟩ ⟨"plain".data⟩).setParam
        ⟨"charset".data⟩ ⟨"UTF-8".data⟩) = true :=
  mediaType_roundtrip _
    (Reachable.setParam _ _ _
      (Reachable.new ⟨"text".data⟩ ⟨"plain".data⟩ (by decide) (by decide))
      (by decide) (by decide))

/-- C2: equality is case-insensitive in the `ty`, `subty`, `suffix` and
parameter-name positions (the two spec examples, and lower-casing every
name position preserves equality) and case-sensitive in parameter values
(a pair differing only in value case is unequal). -/
theorem mediaType_case_insensitive_eq :
    parsesEq "text/plain" "TEXT/PLAIN" = true ∧
    parsesEq "image/svg+xml; charset=UTF-8" "IMAGE/SVG+XML; CHARSET=UTF-8" = true ∧
    (∀ m : MediaType, MediaType.beq (lowerNames m) m = true) ∧
    parsesEq "text/plain; charset=utf-8" "text/plain; charset=UTF-8" = false := by
  exact ⟨by decide, by decide, lowerNames_beq, by decide⟩

/-- C7: `MediaType::parse` is a total function into `Except` (it cannot
panic) and rejects each malformed example with its specific error:
missing slash, empty subtype, trailing `;` (empty parameter name), and
an unterminated quoted string. -/
theorem mediaType_parse_rejects_malformed :
    MediaType.parse "textplain" = .error .missingSlash ∧
    MediaType.parse "text/" = .error (.emptyName .subty) ∧
    MediaType.parse "text/plain;" = .error (.emptyName .paramName) ∧
    MediaType.parse "text/plain; charset=\"unterminated" = .error .unterminatedQuote ∧
    ∀ s : String, (∃ m, MediaType.parse s = .ok m) ∨ (∃ e, MediaType.parse s = .error e) := by
  refine ⟨by decide, by decide, by decide, by decide, ?_⟩
  intro s
  cases h : MediaType.parse s with
  | ok m => exact Or.inl ⟨m, rfl⟩
  | error e => exact Or.inr ⟨e, rfl⟩

/-- C10: frame property: `set_param`, `remove_params` and `clear_params`
leave `ty`, `subty` and `suffix` unchanged. -/
theorem mediaType_writeParams_frame :
    ∀ (m : MediaType) (k : Name) (v : Value),
      ((m.setParam k v).ty = m.ty ∧ (m.setParam k v).subty = m.subty ∧
        (m.setParam k v).suffix = m.suffix) ∧
      ((m.removeParams k).ty = m.ty ∧ (m.removeParams k).subty = m.subty ∧
        (m.removeParams k).suffix = m.suffix) ∧
      (m.clearParams.ty = m.ty ∧ m.clearParams.subty = m.subty ∧
        m.clearParams.suffix = m.suffix) := by
  intro m k v
  exact ⟨setParam_fields m k v, removeParams_fields m k, rfl, rfl, rfl⟩


/-- C4: `get_param` realizes last-write-wins: it returns `none` exactly
when no stored name matches the key case-insensitively, returns the
value of the last matching entry in forward storage order, and the spec
example `HELLO=WORLD; HELLO=world` reads back `world`. -/
theorem mediaType_getParam_last_write_wins :
    ((MediaType.parse "image/svg+xml; HELLO=WORLD; HELLO=world").map
        (fun m => m.getParam ⟨"hello".data⟩) = .ok (some ⟨"world".data⟩)) ∧
    (∀ (m : MediaType) (k : Name),
        (m.getParam k = none ↔ ∀ p ∈ m.params, Name.beq k p.1 = false)) ∧
    (∀ (m : MediaType) (k : Name) (l1 : List (Name × Value)) (q : Name × Value)
        (l2 : List (Name × Value)), m.params = l1 ++ q :: l2 →
        Name.beq k q.1 = true → (∀ p ∈ l2, Name.beq k p.1 = false) →
        m.getParam k = some q.2) := by
  refine ⟨by decide, ?_, ?_⟩
  · intro m k
    rw [MediaType.getParam]
    constructor
    · intro h p hp
      rw [Option.map_eq_none'] at h
      rw [List.find?_eq_none] at h
      have := h p (List.mem_reverse.mpr hp)
      simpa using this
    · intro h
      rw [Option.map_eq_none', List.find?_eq_none]
      intro p hp
      simp [h p (List.mem_reverse.mp hp)]
  · intro m k l1 q l2 hsplit hq hl2
    rw [MediaType.getParam, hsplit]
    have hrev : (l1 ++ q :: l2).reverse = l2.reverse ++ q :: l1.reverse := by
      simp
    rw [hrev, List.find?_append]
    have hnone : l2.reverse.find? (fun p => Name.beq k p.1) = none := by
      rw [List.find?_eq_none]
      intro p hp
      simp [hl2 p (List.mem_reverse.mp hp)]
    rw [hnone]
    simp [List.find?_cons, hq]

theorem mediaType_getParam_last_write_wins_witness :
    MediaType.getParam
      ⟨⟨"a".data⟩, ⟨"b".data⟩, none,
        [(⟨"k".data⟩, ⟨"u".data⟩), (⟨"K".data⟩, ⟨"w".data⟩), (⟨"x".data⟩, ⟨"z".data⟩)]⟩
      ⟨"k".data⟩ = some ⟨"w".data⟩ :=
  mediaType_getParam_last_write_wins.2.2 _ ⟨"k".data⟩
    [(⟨"k".data⟩, ⟨"u".data⟩)] (⟨"K".data⟩, ⟨"w".data⟩) [(⟨"x".data⟩, ⟨"z".data⟩)]
    rfl (by decide) (by decide)

/-- C5: `set_param` removes every case-insensitively matching entry and
appends the new pair at the end; exactly one entry for the key remains,
and setting the same key twice still leaves exactly one entry with the
latest value after all untouched entries. -/
theorem mediaType_setParam_replaces :
    ∀ (m : MediaType) (k : Name) (v v2 : Value),
      (m.setParam k v).params = m.params.filter (fun p => !Name.beq k p.1) ++ [(k, v)] ∧
      (m.setParam k v).params.countP (fun p => Name.beq k p.1) = 1 ∧
      ((m.setParam k v).setParam k v2).params =
        m.params.filter (fun p => !Name.beq k p.1) ++ [(k, v2)] ∧
      ((m.setParam k v).setParam k v2).params.countP (fun p => Name.beq k p.1) = 1 := by
  intro m k v v2
  have hfilter0 : ∀ ps : List (Name × Value),
      (ps.filter (fun p => !Name.beq k p.1)).countP (fun p => Name.beq k p.1) = 0 := by
    intro ps
    rw [List.countP_filter, List.countP_eq_zero]
    intro p hp
    simp
  have hcount : ∀ ps : List (Name × Value), ∀ w : Value,
      (ps.filter (fun p => !Name.beq k p.1) ++ [(k, w)]).countP
        (fun p => Name.beq k p.1) = 1 := by
    intro ps w
    rw [List.countP_append, hfilter0]
    simp [List.countP_cons, nameBeq_refl]
  have hsecond : ((m.setParam k v).setParam k v2).params =
      m.params.filter (fun p => !Name.beq k p.1) ++ [(k, v2)] := by
    rw [setParam_params, setParam_params]
    rw [List.filter_append]
    rw [List.filter_filter]
    have h1 : List.filter (fun p => !Name.beq k p.1 && !Name.beq k p.1) m.params =
        List.filter (fun p => !Name.beq k p.1) m.params := by
      refine List.filter_congr ?_
      intro p hp
      rw [Bool.and_self]
    have h2 : List.filter (fun p => !Name.beq k p.1) [(k, v)] = [] := by
      simp [List.filter, nameBeq_refl]
    rw [h1, h2, List.append_nil]
  refine ⟨setParam_params m k v, ?_, hsecond, ?_⟩
  · rw [setParam_params]
    exact hcount m.params v
  · rw [hsecond]
    exact hcount m.params v2

/-- C6: `remove_params` deletes exactly the case-insensitively matching
entries, keeps the remaining entries in order (a sublist of the
original), and on an absent key is a no-op with unchanged serialized
output. -/
theorem mediaType_removeParams_removes :
    ∀ (m : MediaType) (k : Name),
      (m.removeParams k).params = m.params.filter (fun p => !Name.beq k p.1) ∧
      (∀ p ∈ (m.removeParams k).params, Name.beq k p.1 = false) ∧
      (m.removeParams k).params.Sublist m.params ∧
      ((∀ p ∈ m.params, Name.beq k p.1 = false) →
        m.removeParams k = m ∧ (m.removeParams k).render = m.render) := by
  intro m k
  refine ⟨removeParams_params m k, ?_, ?_, ?_⟩
  · intro p hp
    rw [removeParams_params m k] at hp
    have := List.of_mem_filter hp
    simpa using this
  · rw [removeParams_params m k]
    exact List.filter_sublist m.params
  · intro hall
    have hnoop : m.removeParams k = m := by
      rw [MediaType.removeParams]
      split
      next hany =>
        rw [List.any_eq_true] at hany
        obtain ⟨p, hp, hbeq⟩ := hany
        rw [hall p hp] at hbeq
        cases hbeq
      next hany => rfl
    exact ⟨hnoop, by rw [hnoop]⟩

theorem mediaType_removeParams_removes_witness :
    MediaType.removeParams
        ⟨⟨"a".data⟩, ⟨"b".data⟩, none, [(⟨"k".data⟩, ⟨"u".data⟩)]⟩ ⟨"x".data⟩ =
        ⟨⟨"a".data⟩, ⟨"b".data⟩, none, [(⟨"k".data⟩, ⟨"u".data⟩)]⟩ ∧
      (MediaType.removeParams
        ⟨⟨"a".data⟩, ⟨"b".data⟩, none, [(⟨"k".data⟩, ⟨"u".data⟩)]⟩ ⟨"x".data⟩).render =
        (⟨⟨"a".data⟩, ⟨"b".data⟩, none, [(⟨"k".data⟩, ⟨"u".data⟩)]⟩ : MediaType).render :=
  (mediaType_removeParams_removes
    ⟨⟨"a".data⟩, ⟨"b".data⟩, none, [(⟨"k".data⟩, ⟨"u".data⟩)]⟩ ⟨"x".data⟩).2.2.2
    (by decide)


/-- Elementwise parameter equality, characterised positionally: same
count, and at every position a case-insensitively equal name and an
equal decoded value. -/
theorem paramsBeq_iff :
    ∀ (a b : List (Name × Value)), paramsBeq a b = true ↔
      (a.length = b.length ∧
        ∀ i (h1 : i < a.length) (h2 : i < b.length),
          Name.beq (a.get ⟨i, h1⟩).1 (b.get ⟨i, h2⟩).1 = true ∧
          Value.beq (a.get ⟨i, h1⟩).2 (b.get ⟨i, h2⟩).2 = true) := by
  intro a
  induction a with
  | nil =>
    intro b
    cases b with
    | nil => simp [paramsBeq]
    | cons q b2 => simp [paramsBeq]
  | cons p a2 ih =>
    intro b
    cases b with
    | nil => simp [paramsBeq]
    | cons q b2 =>
      rw [paramsBeq]
      simp only [Bool.and_eq_true]
      constructor
      · rintro ⟨⟨hn, hv⟩, hrest⟩
        obtain ⟨hlen, hidx⟩ := (ih b2).mp hrest
        refine ⟨by simp [hlen], ?_⟩
        intro i h1 h2
        cases i with
        | zero => exact ⟨hn, hv⟩
        | succ j =>
          have := hidx j (by simpa using h1) (by simpa using h2)
          simpa using this
      · rintro ⟨hlen, hidx⟩
        have h0 := hidx 0 (by simp) (by simp)
        refine ⟨⟨h0.1, h0.2⟩, (ih b2).mpr ⟨by simpa using hlen, ?_⟩⟩
        intro j h1 h2
        have := hidx (j + 1) (by simpa using h1) (by simpa using h2)
        simpa using this

/-- C3: equality is order-sensitive for parameters: the spec's example
pair with swapped parameters is unequal, and in general equality is the
positional comparison of the ordered parameter views (same count, same
key and value at each position) together with the `ty`/`subty`/`suffix`
comparisons. -/
theorem mediaType_order_sensitive_eq :
    parsesEq "a/b; x=1; y=2" "a/b; y=2; x=1" = false ∧
    (∀ x y : MediaType, MediaType.beq x y = true ↔
      (Name.beq x.ty y.ty = true ∧ Name.beq x.subty y.subty = true ∧
        suffixBeq x.suffix y.suffix = true ∧ x.params.length = y.params.length ∧
        ∀ i (h1 : i < x.params.length) (h2 : i < y.params.length),
          Name.beq (x.params.get ⟨i, h1⟩).1 (y.params.get ⟨i, h2⟩).1 = true ∧
          Value.beq (x.params.get ⟨i, h1⟩).2 (y.params.get ⟨i, h2⟩).2 = true)) := by
  refine ⟨by decide, ?_⟩
  intro x y
  rw [MediaType.beq]
  simp only [Bool.and_eq_true]
  rw [paramsBeq_iff]
  tauto

theorem mediaType_order_sensitive_eq_witness :
    MediaType.beq ⟨⟨"a".data⟩, ⟨"b".data⟩, none, [(⟨"X".data⟩, ⟨"1".data⟩)]⟩
      ⟨⟨"A".data⟩, ⟨"B".data⟩, none, [(⟨"x".data⟩, ⟨"1".data⟩)]⟩ = true :=
  (mediaType_order_sensitive_eq.2 _ _).mpr
    ⟨by decide, by decide, by decide, by decide, by decide⟩


/-! ### The total-order structure of `cmp` -/

/-- The three comparator laws used to build the `Ord` proof: swap
duality, transitivity of `lt`, and congruence of `eq`. -/
structure LawfulCmp {α : Type} (f : α → α → Ordering) : Prop where
  swap : ∀ a b, f b a = (f a b).swap
  lt_trans : ∀ a b c, f a b = .lt → f b c = .lt → f a c = .lt
  eq_congr : ∀ a b c, f a b = .eq → f a c = f b c

theorem then_eq_eq {o p : Ordering} : o.then p = .eq ↔ o = .eq ∧ p = .eq := by
  cases o <;> simp [Ordering.then]

theorem then_swap (o p : Ordering) : (o.then p).swap = o.swap.then p.swap := by
  cases o <;> simp [Ordering.then, Ordering.swap]

theorem swap_eq_lt {o : Ordering} : o.swap = .lt ↔ o = .gt := by
  cases o <;> simp [Ordering.swap]

theorem swap_eq_eq {o : Ordering} : o.swap = .eq ↔ o = .eq := by
  cases o <;> simp [Ordering.swap]

theorem LawfulCmp.eq_refl {α : Type} {f : α → α → Ordering} (hf : LawfulCmp f)
    (a : α) : f a a = .eq := by
  have h := hf.swap a a
  cases he : f a a with
  | lt => rw [he] at h; simp [Ordering.swap] at h
  | eq => rfl
  | gt => rw [he] at h; simp [Ordering.swap] at h

theorem LawfulCmp.eq_congr_right {α : Type} {f : α → α → Ordering}
    (hf : LawfulCmp f) (a b c : α) (h : f b c = .eq) : f a b = f a c := by
  have h1 : f b a = f c a := hf.eq_congr b c a h
  have h2 := hf.swap a b
  have h3 := hf.swap a c
  have : (f a b).swap = (f a c).swap := by rw [← h2, ← h3, h1]
  calc f a b = (f a b).swap.swap := by rw [Ordering.swap_swap]
    _ = (f a c).swap.swap := by rw [this]
    _ = f a c := by rw [Ordering.swap_swap]

theorem LawfulCmp.then_comp {α : Type} {f g : α → α → Ordering}
    (hf : LawfulCmp f) (hg : LawfulCmp g) :
    LawfulCmp (fun a b => (f a b).then (g a b)) := by
  refine ⟨?_, ?_, ?_⟩
  · intro a b
    rw [hf.swap, hg.swap, then_swap]
  · intro a b c h1 h2
    simp only at h1 h2 ⊢
    cases hab : f a b with
    | lt =>
      cases hbc : f b c with
      | lt => simp [hf.lt_trans a b c hab hbc, Ordering.then]
      | eq =>
        have : f a c = f a b := (hf.eq_congr_right a b c hbc).symm
        rw [this, hab]
        simp [Ordering.then]
      | gt => rw [hbc] at h2; simp [Ordering.then] at h2
    | eq =>
      rw [hab] at h1
      simp [Ordering.then] at h1
      cases hbc : f b c with
      | lt =>
        have : f a c = f b c := hf.eq_congr a b c hab
        rw [this, hbc]
        simp [Ordering.then]
      | eq =>
        rw [hbc] at h2
        simp [Ordering.then] at h2
        have hface : f a c = f b c := hf.eq_congr a b c hab
        rw [hface, hbc]
        simp [Ordering.then]
        exact hg.lt_trans a b c h1 h2
      | gt => rw [hbc] at h2; simp [Ordering.then] at h2
    | gt => rw [hab] at h1; simp [Ordering.then] at h1
  · intro a b c h
    simp only at h ⊢
    rw [then_eq_eq] at h
    obtain ⟨h1, h2⟩ := h
    rw [hf.eq_congr a b c h1, hg.eq_congr a b c h2]

theorem cmpN_lt {a b : Nat} (h : a < b) : cmpN a b = .lt := by
  unfold cmpN; rw [if_pos h]

theorem cmpN_gt {a b : Nat} (h : b < a) : cmpN a b = .gt := by
  unfold cmpN; rw [if_neg (by omega), if_pos h]

theorem cmpN_self (a : Nat) : cmpN a a = .eq := by
  unfold cmpN; rw [if_neg (by omega), if_neg (by omega)]

theorem lawful_cmpN : LawfulCmp cmpN := by
  refine ⟨?_, ?_, ?_⟩
  · intro a b
    rcases Nat.lt_trichotomy a b with h | h | h
    · rw [cmpN_lt h, cmpN_gt h]; rfl
    · subst h; rw [cmpN_self]; rfl
    · rw [cmpN_gt h, cmpN_lt h]; rfl
  · intro a b c h1 h2
    unfold cmpN at h1 h2 ⊢
    split at h1
    · split at h2
      · rw [if_pos (by omega)]
      · split at h2 <;> simp at h2
    · split at h1 <;> simp at h1
  · intro a b c h
    unfold cmpN at h
    have hab : a = b := by
      split at h
      · simp at h
      · split at h
        · simp at h
        · omega
    rw [hab]

theorem cmpN_eq_iff {a b : Nat} : cmpN a b = .eq ↔ a = b := by
  unfold cmpN
  split
  · constructor
    · intro h; simp at h
    · intro h; omega
  · split
    · constructor
      · intro h; simp at h
      · intro h; omega
    · constructor
      · intro _; omega
      · intro _; rfl

theorem lawful_cmpChar : LawfulCmp cmpChar := by
  refine ⟨?_, ?_, ?_⟩
  · intro a b; exact lawful_cmpN.swap a.toNat b.toNat
  · intro a b c; exact lawful_cmpN.lt_trans a.toNat b.toNat c.toNat
  · intro a b c h; exact lawful_cmpN.eq_congr a.toNat b.toNat c.toNat h

theorem cmpChar_eq_iff {a b : Char} : cmpChar a b = .eq ↔ a = b := by
  rw [cmpChar, cmpN_eq_iff]
  constructor
  · intro h
    apply Char.eq_of_val_eq
    apply UInt32.ext
    exact h
  · intro h; rw [h]

theorem lawful_cmpLex {α : Type} {f : α → α → Ordering} (hf : LawfulCmp f) :
    LawfulCmp (cmpLex f) := by
  refine ⟨?_, ?_, ?_⟩
  · intro a
    induction a with
    | nil => intro b; cases b <;> rfl
    | cons x a2 ih =>
      intro b
      cases b with
      | nil => rfl
      | cons y b2 =>
        rw [cmpLex, cmpLex, hf.swap, ih b2, then_swap]
  · intro a
    induction a with
    | nil =>
      intro b c h1 h2
      cases b with
      | nil => exact h2
      | cons y b2 => cases c <;> simp [cmpLex] at *
    | cons x a2 ih =>
      intro b c h1 h2
      cases b with
      | nil => simp [cmpLex] at h1
      | cons y b2 =>
        cases c with
        | nil => simp [cmpLex] at h2
        | cons z c2 =>
          rw [cmpLex] at h1 h2 ⊢
          cases hxy : f x y with
          | lt =>
            cases hyz : f y z with
            | lt => simp [Ordering.then, hf.lt_trans x y z hxy hyz]
            | eq =>
              have : f x z = f x y := (hf.eq_congr_right x y z hyz).symm
              rw [this, hxy]
              simp [Ordering.then]
            | gt => rw [hyz] at h2; simp [Ordering.then] at h2
          | eq =>
            rw [hxy] at h1
            simp [Ordering.then] at h1
            cases hyz : f y z with
            | lt =>
              have : f x z = f y z := hf.eq_congr x y z hxy
              rw [this, hyz]
              simp [Ordering.then]
            | eq =>
              rw [hyz] at h2
              simp [Ordering.then] at h2
              have hface : f x z = f y z := hf.eq_congr x y z hxy
              rw [hface, hyz]
              simp [Ordering.then]
              exact ih b2 c2 h1 h2
            | gt => rw [hyz] at h2; simp [Ordering.then] at h2
          | gt => rw [hxy] at h1; simp [Ordering.then] at h1
  · intro a
    induction a with
    | nil =>
      intro b c h
      cases b with
      | nil => rfl
      | cons y b2 => simp [cmpLex] at h
    | cons x a2 ih =>
      intro b c h
      cases b with
      | nil => simp [cmpLex] at h
      | cons y b2 =>
        rw [cmpLex] at h
        rw [then_eq_eq] at h
        obtain ⟨h1, h2⟩ := h
        cases c with
        | nil => rfl
        | cons z c2 =>
          rw [cmpLex, cmpLex]
          rw [hf.eq_congr x y z h1, ih b2 c2 h2]


theorem LawfulCmp.map {α β : Type} {f : β → β → Ordering} (hf : LawfulCmp f)
    (k : α → β) : LawfulCmp (fun a b => f (k a) (k b)) := by
  refine ⟨?_, ?_, ?_⟩
  · intro a b; exact hf.swap (k a) (k b)
  · intro a b c h1 h2; exact hf.lt_trans (k a) (k b) (k c) h1 h2
  · intro a b c h; exact hf.eq_congr (k a) (k b) (k c) h

theorem lawful_nameCmp : LawfulCmp Name.cmp :=
  (lawful_cmpLex lawful_cmpChar).map Name.key

theorem lawful_valueCmp : LawfulCmp Value.cmp :=
  (lawful_cmpLex lawful_cmpChar).map Value.decoded

theorem lawful_suffixCmp : LawfulCmp suffixCmp := by
  refine ⟨?_, ?_, ?_⟩
  · intro a b
    cases a <;> cases b <;> simp [suffixCmp, Ordering.swap]
    exact lawful_nameCmp.swap _ _
  · intro a b c h1 h2
    cases a <;> cases b <;> cases c <;> simp [suffixCmp] at h1 h2 ⊢
    exact lawful_nameCmp.lt_trans _ _ _ h1 h2
  · intro a b c h
    cases a <;> cases b <;> cases c <;> simp [suffixCmp] at h ⊢
    exact lawful_nameCmp.eq_congr _ _ _ h

theorem lawful_paramCmp : LawfulCmp paramCmp :=
  (lawful_nameCmp.map Prod.fst).then_comp (lawful_valueCmp.map Prod.snd)

theorem lawful_mtCmp : LawfulCmp MediaType.cmp :=
  ((lawful_nameCmp.map MediaType.ty).then_comp
    ((lawful_nameCmp.map MediaType.subty).then_comp
      ((lawful_suffixCmp.map MediaType.suffix).then_comp
        ((lawful_cmpLex lawful_paramCmp).map MediaType.params))))

theorem cmpLexChar_eq_iff : ∀ a b : List Char, cmpLex cmpChar a b = .eq ↔ a = b := by
  intro a
  induction a with
  | nil => intro b; cases b <;> simp [cmpLex]
  | cons x a2 ih =>
    intro b
    cases b with
    | nil => simp [cmpLex]
    | cons y b2 =>
      rw [cmpLex, then_eq_eq]
      rw [cmpChar_eq_iff, ih b2]
      simp

theorem nameCmp_eq_iff {a b : Name} : Name.cmp a b = .eq ↔ Name.beq a b = true := by
  rw [Name.cmp, cmpLexChar_eq_iff, Name.beq]
  simp

theorem valueCmp_eq_iff {a b : Value} : Value.cmp a b = .eq ↔ Value.beq a b = true := by
  rw [Value.cmp, cmpLexChar_eq_iff, Value.beq]
  simp

theorem suffixCmp_eq_iff {a b : Option Name} :
    suffixCmp a b = .eq ↔ suffixBeq a b = true := by
  cases a <;> cases b <;> simp [suffixCmp, suffixBeq]
  exact nameCmp_eq_iff

theorem paramCmp_eq_iff {p q : Name × Value} :
    paramCmp p q = .eq ↔ (Name.beq p.1 q.1 = true ∧ Value.beq p.2 q.2 = true) := by
  rw [paramCmp, then_eq_eq, nameCmp_eq_iff, valueCmp_eq_iff]

theorem cmpLexParams_eq_iff :
    ∀ a b : List (Name × Value), cmpLex paramCmp a b = .eq ↔ paramsBeq a b = true := by
  intro a
  induction a with
  | nil => intro b; cases b <;> simp [cmpLex, paramsBeq]
  | cons p a2 ih =>
    intro b
    cases b with
    | nil => simp [cmpLex, paramsBeq]
    | cons q b2 =>
      rw [cmpLex, then_eq_eq, paramsBeq, paramCmp_eq_iff, ih b2]
      simp [and_assoc]

/-- C8: `Ord for MediaType` is the lexicographic comparison of `ty`,
`subty`, `suffix` and the ordered parameter view with the same case
rules as equality, and it is a total order consistent with equality:
`cmp` returns `Equal` exactly on equal values, is antisymmetric under
`swap`, and `lt` is transitive. -/
theorem mediaType_cmp_total_order :
    (∀ x y : MediaType, MediaType.cmp x y =
      (Name.cmp x.ty y.ty).then ((Name.cmp x.subty y.subty).then
        ((suffixCmp x.suffix y.suffix).then (cmpLex paramCmp x.params y.params)))) ∧
    (∀ x y : MediaType, (MediaType.cmp x y = .eq ↔ MediaType.beq x y = true)) ∧
    (∀ x y : MediaType, MediaType.cmp y x = (MediaType.cmp x y).swap) ∧
    (∀ x y z : MediaType, MediaType.cmp x y = .lt → MediaType.cmp y z = .lt →
      MediaType.cmp x z = .lt) := by
  refine ⟨fun x y => rfl, ?_, lawful_mtCmp.swap, lawful_mtCmp.lt_trans⟩
  intro x y
  rw [MediaType.cmp, MediaType.beq]
  rw [then_eq_eq, then_eq_eq, then_eq_eq]
  rw [nameCmp_eq_iff, nameCmp_eq_iff, suffixCmp_eq_iff, cmpLexParams_eq_iff]
  simp [and_assoc]

theorem mediaType_cmp_total_order_witness :
    MediaType.cmp (MediaType.new ⟨"a".data⟩ ⟨"a".data⟩)
      (MediaType.new ⟨"c".data⟩ ⟨"a".data⟩) = .lt :=
  mediaType_cmp_total_order.2.2.2 (MediaType.new ⟨"a".data⟩ ⟨"a".data⟩)
    (MediaType.new ⟨"b".data⟩ ⟨"a".data⟩) (MediaType.new ⟨"c".data⟩ ⟨"a".data⟩)
    (by decide) (by decide)


/-! ### Hash consistency -/

theorem name_hash_congr {a b : Name} (h : Name.beq a b = true) :
    a.hashN = b.hashN := by
  rw [Name.beq] at h
  simp at h
  rw [Name.hashN, Name.hashN, h]

theorem value_hash_congr {a b : Value} (h : Value.beq a b = true) :
    a.hashN = b.hashN := by
  rw [Value.beq] at h
  simp at h
  rw [Value.hashN, Value.hashN, h]

theorem suffix_hash_congr {a b : Option Name} (h : suffixBeq a b = true) :
    suffixHash a = suffixHash b := by
  cases a <;> cases b <;> simp [suffixBeq] at h <;> simp [suffixHash]
  rw [name_hash_congr h]

theorem params_hash_congr :
    ∀ (a b : List (Name × Value)), paramsBeq a b = true → ∀ acc : Nat,
      a.foldl (fun h p => hashMix h (hashMix p.1.hashN p.2.hashN)) acc =
        b.foldl (fun h p => hashMix h (hashMix p.1.hashN p.2.hashN)) acc := by
  intro a
  induction a with
  | nil =>
    intro b h acc
    cases b with
    | nil => rfl
    | cons q b2 => simp [paramsBeq] at h
  | cons p a2 ih =>
    intro b h acc
    cases b with
    | nil => simp [paramsBeq] at h
    | cons q b2 =>
      rw [paramsBeq] at h
      simp only [Bool.and_eq_true] at h
      obtain ⟨⟨hn, hv⟩, hrest⟩ := h
      simp only [List.foldl_cons]
      rw [name_hash_congr hn, value_hash_congr hv]
      exact ih b2 hrest _

/-- C9: hashing is consistent with equality: equal `MediaType` values
(case-insensitively equal names, equal decoded values) hash identically;
the hash combines the `ty`, `subty` and `suffix` name hashes with each
parameter pair's combined hash in storage order. -/
theorem mediaType_hash_consistent :
    ∀ x y : MediaType, MediaType.beq x y = true →
      MediaType.hashN x = MediaType.hashN y := by
  intro x y h
  rw [MediaType.beq] at h
  simp only [Bool.and_eq_true] at h
  obtain ⟨⟨⟨hty, hsub⟩, hsuf⟩, hps⟩ := h
  rw [MediaType.hashN, MediaType.hashN]
  rw [name_hash_congr hty, name_hash_congr hsub, suffix_hash_congr hsuf]
  exact params_hash_congr x.params y.params hps _

theorem mediaType_hash_consistent_witness :
    MediaType.hashN ⟨⟨"text".data⟩, ⟨"plain".data⟩, none,
        [(⟨"A".data⟩, ⟨"b".data⟩)]⟩ =
      MediaType.hashN ⟨⟨"TEXT".data⟩, ⟨"PLAIN".data⟩, none,
        [(⟨"a".data⟩, ⟨"b".data⟩)]⟩ :=
  mediaType_hash_consistent _ _ (by decide)

end Mediatype
